import Mathlib

/-
Verification development for the ram-utils command-line utility
(src/main.rs).  The program renames files and directories to upper or
lower case forms of their final path component (optionally recursing
through a directory tree) and can tally the counts of file extensions in
a tree.  Below is a shallow embedding of its core functions —
convert_file_or_dir, convert_children, convert_case_command (directory
branch) and find_unique_extensions — followed by theorems settling the
specification claims.

Modelling conventions:
  * OS strings (Rust OsStr) are lists of units, each unit either a valid
    Unicode character or an invalid (non-UTF-8) byte sequence.
  * Paths (Rust Path) are lists of OS-string components.
  * A directory tree is a first-order Forest value; an ioerr node stands
    for a directory entry whose Result item or file_type() call fails,
    the only I/O failures the walker and tally can observe while
    iterating a listing.
  * Rust str::to_uppercase / str::to_lowercase perform full Unicode
    case mapping, concatenating the (possibly multi-character) mapping
    of each character.  The embedding models the fragment exercised
    here: on ASCII characters Rust's maps agree with Char.toUpper and
    Char.toLower, and the multi-character mapping of 'ß' (to "SS", the
    std library's documented example) is included; other non-ASCII
    characters are left as fixed points and no theorem relies on them.
  * The u32 counters of the tally are modelled as Nat reduced mod 2^32.
-/

set_option maxHeartbeats 1000000

namespace RamUtils

/-- Mirror of the Rust enum LetterCase (src/main.rs). -/
inductive LetterCase where
  | UpperCase
  | LowerCase
  deriving DecidableEq, Repr

/-- One unit of an OS string: a valid Unicode character or a byte
sequence that is not valid UTF-8. -/
inductive OsChar where
  | chr (c : Char)
  | bad
  deriving DecidableEq, Repr

/-- An OS string (Rust OsStr): a sequence of units. -/
abbrev OsName := List OsChar

/-- A filesystem path (Rust Path), as the list of its components. -/
abbrev FsPath := List OsName

/-- Decode an OS string to its character list when it is valid UTF-8. -/
def osChars? : OsName → Option (List Char)
  | [] => some []
  | OsChar.chr c :: rest => (osChars? rest).map (fun l => c :: l)
  | OsChar.bad :: _ => none

/-- Model of OsStr::to_str: Some on valid UTF-8, None otherwise. -/
def osToStr? (n : OsName) : Option String := (osChars? n).map String.mk

/-- Encode a Rust String as an OS string (always valid UTF-8). -/
def strToOs (s : String) : OsName := s.data.map OsChar.chr

/-- Model of char::to_uppercase, a possibly multi-character mapping, on
the fragment exercised by this development: ASCII letters map within
ASCII (Char.toUpper agrees with Rust there) and 'ß' maps to "SS"; other
non-ASCII characters are treated as fixed points and never relied on. -/
def charUpper (c : Char) : List Char :=
  if c = 'ß' then ['S', 'S'] else [c.toUpper]

/-- Model of char::to_lowercase on the same fragment: ASCII letters map
within ASCII (Char.toLower agrees with Rust there), 'ß' is a fixed
point in Rust as well; other non-ASCII characters are fixed points of
the model and never relied on. -/
def charLower (c : Char) : List Char := [c.toLower]

/-- Model of str::to_uppercase: concatenate the per-character maps. -/
def toUpperStr (s : String) : String := String.mk (s.data.flatMap charUpper)

/-- Model of str::to_lowercase: concatenate the per-character maps. -/
def toLowerStr (s : String) : String := String.mk (s.data.flatMap charLower)

/-- Is the character ASCII?  On ASCII strings the modelled case maps
coincide exactly with Rust's. -/
def isAsciiChar (c : Char) : Bool := c.toNat < 128

/-- Is every character of the string ASCII? -/
def isAsciiStr (s : String) : Bool := s.data.all isAsciiChar

/-- The match on LetterCase in convert_file_or_dir computing
target_filename (src/main.rs lines 154-157). -/
def applyCase : LetterCase → String → String
  | LetterCase.UpperCase => toUpperStr
  | LetterCase.LowerCase => toLowerStr

/-- Model of Path::file_name (for component-list paths). -/
def fileName? (p : FsPath) : Option OsName := p.getLast?

/-- Model of Path::parent (for component-list paths). -/
def parent? (p : FsPath) : Option FsPath := if p = [] then none else some p.dropLast

/-- The filesystem action performed by one call of convert_file_or_dir:
either nothing, or a rename from src to tgt. -/
inductive RenameAct where
  | noop
  | rename (src tgt : FsPath)
  deriving DecidableEq, Repr

/-- Shallow embedding of convert_file_or_dir (src/main.rs lines 143-167).
It extracts the final component, falls back to the empty string when the
component is absent or not valid UTF-8, returns without action on an
empty name, and otherwise renames the path to its parent (or ".") joined
with the case-folded name.  The rename itself always succeeds in this
model; injected I/O failures live on directory entries instead. -/
def convert_file_or_dir (p : FsPath) (c : LetterCase) : RenameAct :=
  let filename := (osToStr? ((fileName? p).getD [])).getD ""
  if filename = "" then RenameAct.noop
  else RenameAct.rename p
    (((parent? p).getD [strToOs "."]) ++ [strToOs (applyCase c filename)])

/-! ### Directory trees -/

/-- A directory listing, first-order: nil ends a sibling list, the other
constructors are a directory entry (regular file, symlink, directory
with its own children, or an entry whose Result item / file_type() call
fails with an I/O error) followed by its remaining siblings. -/
inductive Forest where
  | nil : Forest
  | file (name : OsName) (rest : Forest) : Forest
  | symlink (name : OsName) (rest : Forest) : Forest
  | dir (name : OsName) (children : Forest) (rest : Forest) : Forest
  | ioerr (rest : Forest) : Forest
  deriving DecidableEq, Repr

/-- Message standing for the description of an injected I/O failure. -/
def ioMsg : String := "io error"

/-! ### The extension tally (find_unique_extensions) -/

/-- Split an OS string at its last '.' unit: some (before, after), or
none when it contains no '.'. -/
def lastDotSplit : OsName → Option (OsName × OsName)
  | [] => none
  | u :: rest =>
    match lastDotSplit rest with
    | some (b, a) => some (u :: b, a)
    | none => if u = OsChar.chr '.' then some ([], rest) else none

/-- Model of Path::extension on a final-component name: the part after
the last '.', except none when there is no '.' or when everything before
the last '.' is empty (hidden files such as ".gitignore"). -/
def osExtension (n : OsName) : Option OsName :=
  match lastDotSplit n with
  | none => none
  | some (b, a) => if b = [] then none else some a

/-- Modelled from the spec: "an extension (a suffix after the last
separator in its final component)" — the claim C5 reading of extension,
with no hidden-file exception.  Used only to compare the claim's words
with what the code computes. -/
def specExtension (n : OsName) : Option OsName :=
  (lastDotSplit n).map (fun p => p.2)

/-- The tally accumulator: an association list standing for the
HashMap<String, u32> of find_unique_extensions.  A HashMap carries no
order, so tallies are compared through their lookups. -/
abbrev ExtMap := List (String × Nat)

/-- Modulus of the u32 counters. -/
def U32 : Nat := 2 ^ 32

/-- Lookup of a key in the tally accumulator. -/
def lookup? : ExtMap → String → Option Nat
  | [], _ => none
  | (k', v) :: rest, k => if k' = k then some v else lookup? rest k

/-- Lookup with the HashMap entry-or-insert default 0. -/
def lookupD (m : ExtMap) (k : String) : Nat := (lookup? m k).getD 0

/-- Model of res.entry(k).or_insert(0) += n with u32 wrap-around. -/
def bump : ExtMap → String → Nat → ExtMap
  | [], k, n => [(k, n % U32)]
  | (k', v) :: rest, k, n =>
    if k' = k then (k', (v + n) % U32) :: rest else (k', v) :: bump rest k n

/-- The loop merging a child tally into the parent accumulator
(src/main.rs lines 199-204). -/
def mergeAll (res child : ExtMap) : ExtMap :=
  child.foldl (fun r p => bump r p.1 p.2) res

/-- Result of a Rust call that can return Err or panic. -/
inductive RRes (α : Type) where
  | ok (a : α)
  | err (e : String)
  | panicked
  deriving DecidableEq, Repr

/-- Handling of one regular file or symlink by find_unique_extensions
(src/main.rs lines 206-212): no extension — skipped; extension present
but not valid UTF-8 — the ext.to_str().unwrap() panics; otherwise the
count for the decoded extension is bumped by one. -/
def tallyStep (n : OsName) (acc : ExtMap) : RRes ExtMap :=
  match osExtension n with
  | none => RRes.ok acc
  | some ext =>
    match osToStr? ext with
    | none => RRes.panicked
    | some e => RRes.ok (bump acc e 1)

/-- Shallow embedding of find_unique_extensions (src/main.rs lines
189-215), with the accumulator res made explicit. -/
def tallyGo : Forest → ExtMap → RRes ExtMap
  | Forest.nil, acc => RRes.ok acc
  | Forest.ioerr _, _ => RRes.err ioMsg
  | Forest.file n rest, acc =>
    match tallyStep n acc with
    | RRes.ok acc2 => tallyGo rest acc2
    | RRes.err e => RRes.err e
    | RRes.panicked => RRes.panicked
  | Forest.symlink n rest, acc =>
    match tallyStep n acc with
    | RRes.ok acc2 => tallyGo rest acc2
    | RRes.err e => RRes.err e
    | RRes.panicked => RRes.panicked
  | Forest.dir _ cs rest, acc =>
    match tallyGo cs [] with
    | RRes.ok child => tallyGo rest (mergeAll acc child)
    | RRes.err e => RRes.err e
    | RRes.panicked => RRes.panicked

/-- find_unique_extensions on a directory listing. -/
def find_unique_extensions (f : Forest) : RRes ExtMap := tallyGo f []

/-- Does the name n tally under the extension key k? -/
def extHit (k : String) (n : OsName) : Nat :=
  if (osExtension n).bind osToStr? = some k then 1 else 0

/-- Number of regular files and symlinks in a forest whose extension
decodes to k; directories contribute only through their children. -/
def countExt (k : String) : Forest → Nat
  | Forest.nil => 0
  | Forest.file n rest => extHit k n + countExt k rest
  | Forest.symlink n rest => extHit k n + countExt k rest
  | Forest.dir _ cs rest => countExt k cs + countExt k rest
  | Forest.ioerr rest => countExt k rest

/-- Sum of the values attached to key k among the pairs of a tally. -/
def sumKey : ExtMap → String → Nat
  | [], _ => 0
  | (k', v) :: rest, k => (if k' = k then v else 0) + sumKey rest k

/-- Invariant of tally accumulators: u32-bounded values and distinct
keys (a HashMap cannot hold a key twice). -/
def mapWF (m : ExtMap) : Prop :=
  (∀ p ∈ m, p.2 < U32) ∧ (m.map Prod.fst).Nodup

/-- A forest with no injected I/O failure anywhere. -/
def clean : Forest → Bool
  | Forest.nil => true
  | Forest.file _ rest => clean rest
  | Forest.symlink _ rest => clean rest
  | Forest.dir _ cs rest => clean cs && clean rest
  | Forest.ioerr _ => false

/-- Is the extension of n present but not valid UTF-8? -/
def badExtName (n : OsName) : Bool :=
  match osExtension n with
  | some ext => (osToStr? ext).isNone
  | none => false

/-- Does the forest contain a regular file or symlink whose extension is
present but not valid UTF-8? -/
def hasBadExt : Forest → Bool
  | Forest.nil => false
  | Forest.file n rest => badExtName n || hasBadExt rest
  | Forest.symlink n rest => badExtName n || hasBadExt rest
  | Forest.dir _ cs rest => hasBadExt cs || hasBadExt rest
  | Forest.ioerr rest => hasBadExt rest

/-! ### The case-conversion walker (convert_children, convert_case_command) -/

/-- Rename and error-message events, in emission order. -/
inductive Evt where
  | errMsg (e : String)
  | rename (src tgt : FsPath)
  deriving DecidableEq, Repr

/-- Events emitted by executing one RenameAct. -/
def actEvts : RenameAct → List Evt
  | RenameAct.noop => []
  | RenameAct.rename s t => [Evt.rename s t]

/-- The final-component name after convert_file_or_dir has acted on it:
unchanged for an undecodable or empty name, case-folded otherwise. -/
def convertEntryName (c : LetterCase) (n : OsName) : OsName :=
  match osToStr? n with
  | none => n
  | some s => if s = "" then n else strToOs (applyCase c s)

/-- The events of the convert_file_or_dir call on the entry named n
inside the directory par. -/
def convertEvts (c : LetterCase) (par : FsPath) (n : OsName) : List Evt :=
  actEvts (convert_file_or_dir (par ++ [n]) c)

/-- Result of one convert_children call: the tree after the walk, the
rename events in order, and the error that short-circuited the loop,
if any. -/
structure WalkOut where
  tree : Forest
  evts : List Evt
  err : Option String
  deriving DecidableEq, Repr

/-- Shallow embedding of convert_children (src/main.rs lines 113-136).
For each entry of the listing of par, in order: a directory entry (when
ignore-dirs is not set) is walked recursively first and then renamed
itself; a file or symlink entry (when ignore-files is not set) is
renamed; an entry whose Result item or file_type() fails makes the walk
return Err at once, leaving the remaining entries untouched. -/
def convert_children (c : LetterCase) (iF iD : Bool) : FsPath → Forest → WalkOut
  | _, Forest.nil => ⟨Forest.nil, [], none⟩
  | _, Forest.ioerr rest => ⟨Forest.ioerr rest, [], some ioMsg⟩
  | par, Forest.file n rest =>
    if iF then
      let w := convert_children c iF iD par rest
      ⟨Forest.file n w.tree, w.evts, w.err⟩
    else
      let w := convert_children c iF iD par rest
      ⟨Forest.file (convertEntryName c n) w.tree, convertEvts c par n ++ w.evts, w.err⟩
  | par, Forest.symlink n rest =>
    if iF then
      let w := convert_children c iF iD par rest
      ⟨Forest.symlink n w.tree, w.evts, w.err⟩
    else
      let w := convert_children c iF iD par rest
      ⟨Forest.symlink (convertEntryName c n) w.tree, convertEvts c par n ++ w.evts, w.err⟩
  | par, Forest.dir n cs rest =>
    if iD then
      let w := convert_children c iF iD par rest
      ⟨Forest.dir n cs w.tree, w.evts, w.err⟩
    else
      let wc := convert_children c iF iD (par ++ [n]) cs
      match wc.err with
      | some e => ⟨Forest.dir n wc.tree rest, wc.evts, some e⟩
      | none =>
        let w := convert_children c iF iD par rest
        ⟨Forest.dir (convertEntryName c n) wc.tree w.tree,
          wc.evts ++ convertEvts c par n ++ w.evts, w.err⟩

/-- Shallow embedding of the directory branch of convert_case_command
(src/main.rs lines 94-110) for an existing directory p with listing f:
when recursive is set the walker runs first and a failure of the walk is
reported as an Error message; then — with no return in between —
convert_file_or_dir is called on p itself. -/
def convert_case_command (c : LetterCase) (recursive iF iD : Bool)
    (p : FsPath) (f : Forest) : List Evt :=
  let w := if recursive then convert_children c iF iD p f else ⟨f, [], none⟩
  (w.evts ++ (match w.err with | some e => [Evt.errMsg e] | none => [])) ++
    actEvts (convert_file_or_dir p c)

/-- Source path of an event (the empty path for an error message; error
messages never occur inside a successful walk). -/
def evSrc : Evt → FsPath
  | Evt.errMsg _ => []
  | Evt.rename s _ => s

/-- Strict ancestor relation on component paths: proper prefix. -/
def pathBelow (q r : FsPath) : Prop := q <+: r ∧ q ≠ r

instance (q r : FsPath) : Decidable (pathBelow q r) := by
  unfold pathBelow
  infer_instance

/-- Names of the top-level entries of a listing. -/
def namesOf : Forest → List OsName
  | Forest.nil => []
  | Forest.file n rest => n :: namesOf rest
  | Forest.symlink n rest => n :: namesOf rest
  | Forest.dir n _ rest => n :: namesOf rest
  | Forest.ioerr rest => namesOf rest

/-- Well-formed directory tree: sibling names are distinct at every
level (a real directory cannot list one name twice). -/
def wfForest : Forest → Bool
  | Forest.nil => true
  | Forest.file n rest => decide (n ∉ namesOf rest) && wfForest rest
  | Forest.symlink n rest => decide (n ∉ namesOf rest) && wfForest rest
  | Forest.dir n cs rest => decide (n ∉ namesOf rest) && wfForest cs && wfForest rest
  | Forest.ioerr rest => wfForest rest

/-- Expected result of convert_children with ignore-dirs set: a map over
the top level only — directory entries are untouched wholesale, file and
symlink entries are renamed unless ignore-files is also set. -/
def topConvert (c : LetterCase) (iF : Bool) : Forest → Forest
  | Forest.nil => Forest.nil
  | Forest.file n rest =>
    Forest.file (if iF then n else convertEntryName c n) (topConvert c iF rest)
  | Forest.symlink n rest =>
    Forest.symlink (if iF then n else convertEntryName c n) (topConvert c iF rest)
  | Forest.dir n cs rest => Forest.dir n cs (topConvert c iF rest)
  | Forest.ioerr rest => Forest.ioerr (topConvert c iF rest)

/-- Expected result of convert_children with ignore-files set: files and
symlinks untouched at every depth, directory names converted at every
depth. -/
def dirsOnly (c : LetterCase) : Forest → Forest
  | Forest.nil => Forest.nil
  | Forest.file n rest => Forest.file n (dirsOnly c rest)
  | Forest.symlink n rest => Forest.symlink n (dirsOnly c rest)
  | Forest.dir n cs rest => Forest.dir (convertEntryName c n) (dirsOnly c cs) (dirsOnly c rest)
  | Forest.ioerr rest => Forest.ioerr (dirsOnly c rest)

/-- A single directory entry, used to state sibling reordering. -/
inductive Ent where
  | file (name : OsName)
  | symlink (name : OsName)
  | dir (name : OsName) (children : Forest)
  | ioerr
  deriving DecidableEq, Repr

/-- Put an entry in front of a sibling list. -/
def consF : Ent → Forest → Forest
  | Ent.file n, r => Forest.file n r
  | Ent.symlink n, r => Forest.symlink n r
  | Ent.dir n cs, r => Forest.dir n cs r
  | Ent.ioerr, r => Forest.ioerr r

/-- Contribution of a single entry to the count for extension k. -/
def cEnt (k : String) : Ent → Nat
  | Ent.file n => extHit k n
  | Ent.symlink n => extHit k n
  | Ent.dir _ cs => countExt k cs
  | Ent.ioerr => 0

/-- Sibling reordering at every depth: head-preserving congruence steps
(allowing reordering inside a directory's children), adjacent
transpositions of sibling entries, and transitivity. -/
inductive PermForest : Forest → Forest → Prop where
  | nil : PermForest Forest.nil Forest.nil
  | file (n : OsName) {r r' : Forest} :
      PermForest r r' → PermForest (Forest.file n r) (Forest.file n r')
  | symlink (n : OsName) {r r' : Forest} :
      PermForest r r' → PermForest (Forest.symlink n r) (Forest.symlink n r')
  | ioerr {r r' : Forest} :
      PermForest r r' → PermForest (Forest.ioerr r) (Forest.ioerr r')
  | dir (n : OsName) {cs cs' r r' : Forest} :
      PermForest cs cs' → PermForest r r' →
      PermForest (Forest.dir n cs r) (Forest.dir n cs' r')
  | swap (e e' : Ent) (r : Forest) :
      PermForest (consF e (consF e' r)) (consF e' (consF e r))
  | trans {a b c : Forest} : PermForest a b → PermForest b c → PermForest a c

/-! ### Basic lemmas about the string model -/

theorem toNat_ofNat_valid {n : Nat} (h : n.isValidChar) : (Char.ofNat n).toNat = n := by
  rw [Char.ofNat, dif_pos h]
  rfl

theorem toLower_after_toUpper (c : Char) : c.toUpper.toLower = c.toLower := by
  simp only [Char.toUpper, Char.toLower]
  by_cases h : c.toNat ≥ 97 ∧ c.toNat ≤ 122
  · rw [if_pos h]
    have hv : (c.toNat - 32).isValidChar := by
      left; omega
    rw [toNat_ofNat_valid hv]
    rw [if_pos (by omega : c.toNat - 32 ≥ 65 ∧ c.toNat - 32 ≤ 90),
        if_neg (by omega : ¬(c.toNat ≥ 65 ∧ c.toNat ≤ 90))]
    have h32 : c.toNat - 32 + 32 = c.toNat := by omega
    rw [h32, Char.ofNat_toNat]
  · rw [if_neg h]

theorem toUpper_after_toLower (c : Char) : c.toLower.toUpper = c.toUpper := by
  simp only [Char.toUpper, Char.toLower]
  by_cases h : c.toNat ≥ 65 ∧ c.toNat ≤ 90
  · rw [if_pos h]
    have hv : (c.toNat + 32).isValidChar := by
      left; omega
    rw [toNat_ofNat_valid hv]
    rw [if_pos (by omega : c.toNat + 32 ≥ 97 ∧ c.toNat + 32 ≤ 122),
        if_neg (by omega : ¬(c.toNat ≥ 97 ∧ c.toNat ≤ 122))]
    have h32 : c.toNat + 32 - 32 = c.toNat := by omega
    rw [h32, Char.ofNat_toNat]
  · rw [if_neg h]

theorem data_mk (l : List Char) : (String.mk l).data = l := rfl

theorem toLower_ascii {c : Char} (h : isAsciiChar c = true) :
    isAsciiChar c.toLower = true := by
  simp only [isAsciiChar, decide_eq_true_eq] at h ⊢
  simp only [Char.toLower]
  by_cases hc : c.toNat ≥ 65 ∧ c.toNat ≤ 90
  · rw [if_pos hc, toNat_ofNat_valid (by left; omega)]
    omega
  · rw [if_neg hc]
    exact h

theorem flatMap_lower (l : List Char) :
    l.flatMap charLower = l.map Char.toLower := by
  induction l with
  | nil => rfl
  | cons c cs ih => simp [charLower, ih]

theorem flatMap_upper_ascii (l : List Char) (h : l.all isAsciiChar = true) :
    l.flatMap charUpper = l.map Char.toUpper := by
  induction l with
  | nil => rfl
  | cons c cs ih =>
    simp only [List.all_cons, Bool.and_eq_true] at h
    have hne : c ≠ 'ß' := by
      intro hh
      subst hh
      simp [isAsciiChar] at h
    simp [charUpper, hne, ih h.2]

theorem toLowerStr_toUpperStr (s : String) (ha : isAsciiStr s = true) :
    toLowerStr (toUpperStr s) = toLowerStr s := by
  unfold toLowerStr toUpperStr
  rw [data_mk, flatMap_upper_ascii s.data ha, flatMap_lower, flatMap_lower,
    List.map_map]
  congr 1
  exact List.map_congr_left (fun c _ => toLower_after_toUpper c)

theorem toUpperStr_toLowerStr (s : String) (ha : isAsciiStr s = true) :
    toUpperStr (toLowerStr s) = toUpperStr s := by
  unfold toUpperStr toLowerStr
  rw [data_mk, flatMap_lower]
  have hall : (s.data.map Char.toLower).all isAsciiChar = true := by
    simp only [List.all_map]
    simp only [isAsciiStr, List.all_eq_true] at ha ⊢
    intro c hc
    exact toLower_ascii (ha c hc)
  rw [flatMap_upper_ascii _ hall, flatMap_upper_ascii s.data ha, List.map_map]
  congr 1
  exact List.map_congr_left (fun c _ => toUpper_after_toLower c)

theorem osToStr_strToOs (s : String) : osToStr? (strToOs s) = some s := by
  have h : ∀ l : List Char, osChars? (l.map OsChar.chr) = some l := by
    intro l
    induction l with
    | nil => rfl
    | cons c cs ih => simp [osChars?, ih]
  unfold osToStr? strToOs
  rw [h s.data]
  cases s
  rfl

/-- Characterisation of convert_file_or_dir on a path with a last
component: not-UTF-8 or empty names give no action, a valid nonempty
name s gives a rename into the parent with the case-folded name. -/
theorem cfod_concat (pre : FsPath) (n : OsName) (c : LetterCase) :
    convert_file_or_dir (pre ++ [n]) c =
      match osToStr? n with
      | none => RenameAct.noop
      | some s =>
        if s = "" then RenameAct.noop
        else RenameAct.rename (pre ++ [n]) (pre ++ [strToOs (applyCase c s)]) := by
  unfold convert_file_or_dir fileName? parent?
  rw [List.getLast?_concat]
  have hne : pre ++ [n] ≠ [] := by simp
  rw [if_neg hne]
  simp only [Option.getD_some]
  cases h : osToStr? n with
  | none => simp [h]
  | some s =>
    simp only [h, Option.getD_some]
    by_cases hs : s = ""
    · simp [hs]
    · rw [if_neg hs, if_neg hs]
      simp [List.dropLast_concat]

/-! ### Claim C3: upper-then-lower and lower-then-upper round trips -/

/-- C3 fails as stated: Rust's full Unicode to_uppercase maps "ß" to
"SS" (the std library's documented example, included in the model), and
lowercasing that gives "ss" — not "ß", the fully-lowercased form of the
original (which "ß" already is).  So upper-then-lower does not yield
the fully-lowercased form for every non-empty name. -/
theorem claim_C3_counterexample :
    applyCase LetterCase.UpperCase "ß" = "SS" ∧
    applyCase LetterCase.LowerCase (applyCase LetterCase.UpperCase "ß") = "ss" ∧
    toLowerStr "ß" = "ß" ∧
    ("ss" : String) ≠ "ß" := by
  decide

/-- C3 amended: for every non-empty final-component name consisting of
ASCII characters, applying the UpperCase transformation then the
LowerCase transformation yields the fully lowercased form of the
original name, and LowerCase then UpperCase yields the fully uppercased
form, independent of the original casing.  Outside ASCII the
multi-character Unicode mappings (such as ß to SS) break the round
trip. -/
theorem claim_C3_roundtrip (s : String) (hs : s ≠ "")
    (ha : isAsciiStr s = true) :
    applyCase LetterCase.LowerCase (applyCase LetterCase.UpperCase s) = toLowerStr s ∧
    applyCase LetterCase.UpperCase (applyCase LetterCase.LowerCase s) = toUpperStr s := by
  constructor
  · exact toLowerStr_toUpperStr s ha
  · exact toUpperStr_toLowerStr s ha

/-- Witness for C3 (amended) at the concrete name "MiXeD.Zip". -/
theorem claim_C3_roundtrip_witness :
    applyCase LetterCase.LowerCase (applyCase LetterCase.UpperCase "MiXeD.Zip") =
      toLowerStr "MiXeD.Zip" ∧
    applyCase LetterCase.UpperCase (applyCase LetterCase.LowerCase "MiXeD.Zip") =
      toUpperStr "MiXeD.Zip" :=
  claim_C3_roundtrip "MiXeD.Zip" (by decide) (by decide)

/-! ### Claim C6: what convert_file_or_dir does -/

/-- C6: convert_file_or_dir extracts the final component name; on an
empty path or an empty (or undecodable) name it returns success without
renaming; otherwise it case-folds the whole name, extension included,
and renames the source to the parent directory joined with the
transformed name. -/
theorem claim_C6_convert_shape (pre : FsPath) (n : OsName) (c : LetterCase) :
    (convert_file_or_dir [] c = RenameAct.noop) ∧
    (osToStr? n = some "" → convert_file_or_dir (pre ++ [n]) c = RenameAct.noop) ∧
    (∀ s : String, osToStr? n = some s → s ≠ "" →
      convert_file_or_dir (pre ++ [n]) c =
        RenameAct.rename (pre ++ [n]) (pre ++ [strToOs (applyCase c s)])) := by
  refine ⟨rfl, ?_, ?_⟩
  · intro h
    rw [cfod_concat, h]
    simp
  · intro s h hs
    rw [cfod_concat, h]
    simp only []
    rw [if_neg hs]

/-- Witness for C6: converting /foo/bar/baz.zip to upper case renames it
to /foo/bar/BAZ.ZIP — the whole name is folded, extension included. -/
theorem claim_C6_convert_shape_witness :
    convert_file_or_dir [strToOs "foo", strToOs "bar", strToOs "baz.zip"]
        LetterCase.UpperCase =
      RenameAct.rename [strToOs "foo", strToOs "bar", strToOs "baz.zip"]
        [strToOs "foo", strToOs "bar", strToOs "BAZ.ZIP"] := by
  have h := (claim_C6_convert_shape [strToOs "foo", strToOs "bar"]
    (strToOs "baz.zip") LetterCase.UpperCase).2.2 "baz.zip"
    (osToStr_strToOs "baz.zip") (by decide)
  exact h.trans (by decide)

/-! ### Claim C7: converting an already-converted name is a self-rename -/

/-- C7: for a final-component name already fully upper case, UpperCase
conversion targets the very same path (and symmetrically for a fully
lower case name under LowerCase): the operation is a rename from the
path to itself, never an error. -/
theorem claim_C7_idempotent (pre : FsPath) (s : String) (hs : s ≠ "") :
    (toUpperStr s = s →
      convert_file_or_dir (pre ++ [strToOs s]) LetterCase.UpperCase =
        RenameAct.rename (pre ++ [strToOs s]) (pre ++ [strToOs s])) ∧
    (toLowerStr s = s →
      convert_file_or_dir (pre ++ [strToOs s]) LetterCase.LowerCase =
        RenameAct.rename (pre ++ [strToOs s]) (pre ++ [strToOs s])) := by
  constructor
  · intro hup
    rw [cfod_concat, osToStr_strToOs]
    simp only [applyCase]
    rw [hup, if_neg hs]
  · intro hlo
    rw [cfod_concat, osToStr_strToOs]
    simp only [applyCase]
    rw [hlo, if_neg hs]

/-- Witness for C7 at the already-uppercase name "TEST.FILE". -/
theorem claim_C7_idempotent_witness :
    convert_file_or_dir [strToOs "tmp", strToOs "TEST.FILE"] LetterCase.UpperCase =
      RenameAct.rename [strToOs "tmp", strToOs "TEST.FILE"]
        [strToOs "tmp", strToOs "TEST.FILE"] :=
  (claim_C7_idempotent [strToOs "tmp"] "TEST.FILE" (by decide)).1 (by decide)

/-! ### Claim C9: non-UTF-8 final components are silently skipped -/

/-- C9: when the final component of a path is not valid UTF-8,
convert_file_or_dir treats the name as empty and returns success without
attempting a rename — the entry is silently skipped, not an error. -/
theorem claim_C9_non_utf8_noop (pre : FsPath) (n : OsName) (c : LetterCase)
    (h : osToStr? n = none) :
    convert_file_or_dir (pre ++ [n]) c = RenameAct.noop := by
  rw [cfod_concat, h]

/-- Witness for C9 at a concrete invalid name. -/
theorem claim_C9_non_utf8_noop_witness :
    convert_file_or_dir [strToOs "tmp", [OsChar.chr 'a', OsChar.bad]]
        LetterCase.UpperCase = RenameAct.noop :=
  claim_C9_non_utf8_noop [strToOs "tmp"] [OsChar.chr 'a', OsChar.bad]
    LetterCase.UpperCase (by decide)

/-! ### Lemmas about the tally accumulator -/

theorem U32_pos : 0 < U32 := by norm_num [U32]

theorem lookup?_eq_none (m : ExtMap) (k : String) :
    lookup? m k = none ↔ k ∉ m.map Prod.fst := by
  induction m with
  | nil => simp [lookup?]
  | cons p rest ih =>
    obtain ⟨k', v⟩ := p
    by_cases h : k' = k
    · subst h
      simp [lookup?]
    · simp only [lookup?]
      rw [if_neg h, ih, List.map_cons, List.mem_cons, not_or]
      constructor
      · intro hn
        exact ⟨fun hh => h hh.symm, hn⟩
      · intro hn
        exact hn.2

theorem lookup?_bump_same (m : ExtMap) (k : String) (n : Nat) :
    lookup? (bump m k n) k = some ((lookupD m k + n) % U32) := by
  induction m with
  | nil => simp [bump, lookup?, lookupD]
  | cons p rest ih =>
    obtain ⟨k', v⟩ := p
    by_cases h : k' = k
    · subst h
      simp [bump, lookup?, lookupD]
    · simp [bump, lookup?, lookupD, h, ih]

theorem lookup?_bump_other (m : ExtMap) (k k2 : String) (n : Nat) (hk : k ≠ k2) :
    lookup? (bump m k n) k2 = lookup? m k2 := by
  induction m with
  | nil => simp [bump, lookup?, hk]
  | cons p rest ih =>
    obtain ⟨k', v⟩ := p
    by_cases h : k' = k
    · subst h
      simp [bump, lookup?, hk]
    · by_cases h2 : k' = k2
      · subst h2
        simp [bump, lookup?, h]
      · simp [bump, lookup?, h, h2, ih]

theorem bump_keys (m : ExtMap) (k k2 : String) (n : Nat) :
    (lookup? (bump m k n) k2).isSome ↔ (lookup? m k2).isSome ∨ k2 = k := by
  by_cases h : k = k2
  · subst h
    simp [lookup?_bump_same]
  · rw [lookup?_bump_other m k k2 n h]
    simp [Ne.symm h]

theorem bump_vals {m : ExtMap} (hv : ∀ p ∈ m, p.2 < U32) (k : String) (n : Nat) :
    ∀ p ∈ bump m k n, p.2 < U32 := by
  induction m with
  | nil =>
    intro p hp
    simp [bump] at hp
    rw [hp]
    exact Nat.mod_lt _ U32_pos
  | cons q rest ih =>
    obtain ⟨k', v⟩ := q
    intro p hp
    by_cases h : k' = k
    · subst h
      simp [bump] at hp
      rcases hp with hp | hp
      · rw [hp]
        exact Nat.mod_lt _ U32_pos
      · exact hv p (List.mem_cons_of_mem _ hp)
    · simp [bump, h] at hp
      rcases hp with hp | hp
      · rw [hp]
        exact hv (k', v) (List.mem_cons_self _ _)
      · exact ih (fun q hq => hv q (List.mem_cons_of_mem _ hq)) p hp

theorem bump_fst (m : ExtMap) (k : String) (n : Nat) :
    (bump m k n).map Prod.fst =
      if (lookup? m k).isSome then m.map Prod.fst else m.map Prod.fst ++ [k] := by
  induction m with
  | nil => simp [bump, lookup?]
  | cons p rest ih =>
    obtain ⟨k', v⟩ := p
    by_cases h : k' = k
    · subst h
      simp [bump, lookup?]
    · by_cases hr : (lookup? rest k).isSome <;> simp [bump, lookup?, h, ih, hr]

theorem bump_nodup {m : ExtMap} (hd : (m.map Prod.fst).Nodup) (k : String) (n : Nat) :
    ((bump m k n).map Prod.fst).Nodup := by
  rw [bump_fst]
  by_cases h : (lookup? m k).isSome
  · simp [h, hd]
  · rw [if_neg h]
    have hk : k ∉ m.map Prod.fst := by
      rw [← lookup?_eq_none]
      cases hl : lookup? m k
      · rfl
      · rw [hl] at h
        simp at h
    simp [List.nodup_append, hd, hk]

theorem mapWF_nil : mapWF ([] : ExtMap) := ⟨by simp, by simp⟩

theorem mapWF_bump {m : ExtMap} (h : mapWF m) (k : String) (n : Nat) :
    mapWF (bump m k n) :=
  ⟨bump_vals h.1 k n, bump_nodup h.2 k n⟩

theorem lookupD_lt {m : ExtMap} (hv : ∀ p ∈ m, p.2 < U32) (k : String) :
    lookupD m k < U32 := by
  induction m with
  | nil => exact U32_pos
  | cons p rest ih =>
    obtain ⟨k', v⟩ := p
    by_cases h : k' = k
    · subst h
      have := hv (k', v) (List.mem_cons_self _ _)
      simpa [lookupD, lookup?] using this
    · have := ih (fun q hq => hv q (List.mem_cons_of_mem _ hq))
      simpa [lookupD, lookup?, h] using this

theorem sumKey_not_mem {m : ExtMap} {k : String} (h : k ∉ m.map Prod.fst) :
    sumKey m k = 0 := by
  induction m with
  | nil => rfl
  | cons p rest ih =>
    obtain ⟨k', v⟩ := p
    rw [List.map_cons, List.mem_cons, not_or] at h
    have h1 : ¬ k' = k := fun hh => h.1 hh.symm
    simp only [sumKey, if_neg h1, Nat.zero_add]
    exact ih h.2

theorem sumKey_eq_lookupD {m : ExtMap} (hd : (m.map Prod.fst).Nodup) (k : String) :
    sumKey m k = lookupD m k := by
  induction m with
  | nil => rfl
  | cons p rest ih =>
    obtain ⟨k', v⟩ := p
    rw [List.map_cons, List.nodup_cons] at hd
    by_cases h : k' = k
    · subst h
      have h0 : sumKey rest k' = 0 := sumKey_not_mem hd.1
      simp [sumKey, lookupD, lookup?, h0]
    · simp only [sumKey, if_neg h, Nat.zero_add, lookupD, lookup?]
      exact ih hd.2

theorem mergeAll_cons (r : ExtMap) (k1 : String) (v1 : Nat) (rest : ExtMap) :
    mergeAll r ((k1, v1) :: rest) = mergeAll (bump r k1 v1) rest := rfl

theorem mergeAll_lookupD (ch : ExtMap) : ∀ r : ExtMap, (∀ p ∈ r, p.2 < U32) →
    ∀ k, lookupD (mergeAll r ch) k = (lookupD r k + sumKey ch k) % U32 := by
  induction ch with
  | nil =>
    intro r hr k
    simp [mergeAll, sumKey]
    exact (Nat.mod_eq_of_lt (lookupD_lt hr k)).symm
  | cons p rest ih =>
    intro r hr k
    obtain ⟨k1, v1⟩ := p
    rw [mergeAll_cons, ih (bump r k1 v1) (bump_vals hr k1 v1) k]
    by_cases h : k1 = k
    · subst h
      have hs : lookupD (bump r k1 v1) k1 = (lookupD r k1 + v1) % U32 := by
        simp [lookupD, lookup?_bump_same]
      rw [hs, Nat.mod_add_mod, sumKey]
      simp [Nat.add_assoc]
    · have ho : lookupD (bump r k1 v1) k = lookupD r k := by
        simp [lookupD, lookup?_bump_other r k1 k v1 h]
      rw [ho, sumKey, if_neg h, Nat.zero_add]

theorem mergeAll_isSome (ch : ExtMap) : ∀ (r : ExtMap) (k : String),
    (lookup? (mergeAll r ch) k).isSome ↔
      (lookup? r k).isSome ∨ (lookup? ch k).isSome := by
  induction ch with
  | nil =>
    intro r k
    simp [mergeAll, lookup?]
  | cons p rest ih =>
    intro r k
    obtain ⟨k1, v1⟩ := p
    rw [mergeAll_cons, ih]
    rw [bump_keys]
    by_cases h : k1 = k
    · subst h
      simp [lookup?]
    · have hk : ¬ k = k1 := fun hh => h hh.symm
      simp [lookup?, h, hk, or_assoc]

theorem mergeAll_WF (ch : ExtMap) : ∀ r : ExtMap, mapWF r → mapWF (mergeAll r ch) := by
  induction ch with
  | nil =>
    intro r hr
    exact hr
  | cons p rest ih =>
    intro r hr
    obtain ⟨k1, v1⟩ := p
    rw [mergeAll_cons]
    exact ih _ (mapWF_bump hr k1 v1)

/-! ### Characterisation of the tally -/

theorem tallyStep_no_err (n : OsName) (acc : ExtMap) (e : String) :
    tallyStep n acc ≠ RRes.err e := by
  cases hx : osExtension n with
  | none => simp [tallyStep, hx]
  | some ext =>
    cases hex : osToStr? ext with
    | none => simp [tallyStep, hx, hex]
    | some s => simp [tallyStep, hx, hex]

theorem tallyStep_panic_iff (n : OsName) (acc : ExtMap) :
    tallyStep n acc = RRes.panicked ↔ badExtName n = true := by
  cases hx : osExtension n with
  | none => simp [tallyStep, badExtName, hx]
  | some ext =>
    cases hex : osToStr? ext with
    | none => simp [tallyStep, badExtName, hx, hex]
    | some s => simp [tallyStep, badExtName, hx, hex]

/-- Effect of one file step of the tally on the accumulator. -/
theorem step_char (n : OsName) (acc acc2 : ExtMap) (hwf : mapWF acc)
    (h : tallyStep n acc = RRes.ok acc2) :
    mapWF acc2 ∧ ∀ k : String,
      lookupD acc2 k = (lookupD acc k + extHit k n) % U32 ∧
      ((lookup? acc2 k).isSome ↔ (lookup? acc k).isSome ∨ 0 < extHit k n) := by
  unfold tallyStep at h
  cases hx : osExtension n with
  | none =>
    rw [hx] at h
    have h' : RRes.ok acc = RRes.ok acc2 := h
    injection h' with h2
    subst h2
    refine ⟨hwf, fun k => ?_⟩
    have hz : extHit k n = 0 := by simp [extHit, hx]
    rw [hz]
    constructor
    · rw [Nat.add_zero]
      exact (Nat.mod_eq_of_lt (lookupD_lt hwf.1 k)).symm
    · simp
  | some ext =>
    rw [hx] at h
    have h1 : (match osToStr? ext with
      | none => RRes.panicked
      | some e => RRes.ok (bump acc e 1)) = RRes.ok acc2 := h
    cases hex : osToStr? ext with
    | none =>
      rw [hex] at h1
      exact RRes.noConfusion h1
    | some e =>
      rw [hex] at h1
      have h2 : RRes.ok (bump acc e 1) = RRes.ok acc2 := h1
      injection h2 with h3
      subst h3
      refine ⟨mapWF_bump hwf e 1, fun k => ?_⟩
      have hbind : (osExtension n).bind osToStr? = some e := by
        rw [hx]
        exact hex
      by_cases hk : k = e
      · subst hk
        have h1e : extHit k n = 1 := by simp [extHit, hbind]
        constructor
        · rw [h1e]
          simp [lookupD, lookup?_bump_same]
        · rw [h1e, bump_keys]
          simp
      · have h0 : extHit k n = 0 := by
          simp only [extHit, hbind]
          rw [if_neg (by simpa using fun hh : e = k => hk hh.symm)]
        constructor
        · rw [h0, Nat.add_zero]
          rw [lookupD, lookup?_bump_other acc e k 1 (fun hh => hk hh.symm)]
          exact (Nat.mod_eq_of_lt (lookupD_lt hwf.1 k)).symm
        · rw [h0, bump_keys]
          simp [hk]

/-- Full characterisation of tallyGo on a successful run: the resulting
lookups count the matching files (mod 2^32) on top of the accumulator,
and the keys are exactly the accumulator's keys plus the extensions
occurring in the tree. -/
theorem tally_char (f : Forest) : ∀ acc m : ExtMap, mapWF acc →
    tallyGo f acc = RRes.ok m →
    mapWF m ∧ ∀ k : String,
      lookupD m k = (lookupD acc k + countExt k f) % U32 ∧
      ((lookup? m k).isSome ↔ (lookup? acc k).isSome ∨ 0 < countExt k f) := by
  induction f with
  | nil =>
    intro acc m hwf h
    have h' : RRes.ok acc = RRes.ok m := h
    injection h' with h2
    subst h2
    refine ⟨hwf, fun k => ⟨?_, by simp [countExt]⟩⟩
    simp only [countExt, Nat.add_zero]
    exact (Nat.mod_eq_of_lt (lookupD_lt hwf.1 k)).symm
  | ioerr rest ih =>
    intro acc m hwf h
    exact RRes.noConfusion (show RRes.err ioMsg = RRes.ok m from h)
  | file n rest ih =>
    intro acc m hwf h
    simp only [tallyGo] at h
    cases hs : tallyStep n acc with
    | ok acc2 =>
      rw [hs] at h
      have h' : tallyGo rest acc2 = RRes.ok m := h
      have hstep := step_char n acc acc2 hwf hs
      have hrest := ih acc2 m hstep.1 h'
      refine ⟨hrest.1, fun k => ?_⟩
      obtain ⟨hl, hm⟩ := hrest.2 k
      obtain ⟨sl, sm⟩ := hstep.2 k
      constructor
      · rw [hl, sl, Nat.mod_add_mod, Nat.add_assoc]
        simp only [countExt]
      · rw [hm, sm]
        simp only [countExt]
        constructor
        · rintro ((ha | he) | hcr)
          · exact Or.inl ha
          · exact Or.inr (by omega)
          · exact Or.inr (by omega)
        · rintro (ha | hp)
          · exact Or.inl (Or.inl ha)
          · rcases Nat.lt_or_ge 0 (extHit k n) with he | he
            · exact Or.inl (Or.inr he)
            · exact Or.inr (by omega)
    | err e =>
      exact absurd hs (tallyStep_no_err n acc e)
    | panicked =>
      rw [hs] at h
      exact RRes.noConfusion (show RRes.panicked = RRes.ok m from h)
  | symlink n rest ih =>
    intro acc m hwf h
    simp only [tallyGo] at h
    cases hs : tallyStep n acc with
    | ok acc2 =>
      rw [hs] at h
      have h' : tallyGo rest acc2 = RRes.ok m := h
      have hstep := step_char n acc acc2 hwf hs
      have hrest := ih acc2 m hstep.1 h'
      refine ⟨hrest.1, fun k => ?_⟩
      obtain ⟨hl, hm⟩ := hrest.2 k
      obtain ⟨sl, sm⟩ := hstep.2 k
      constructor
      · rw [hl, sl, Nat.mod_add_mod, Nat.add_assoc]
        simp only [countExt]
      · rw [hm, sm]
        simp only [countExt]
        constructor
        · rintro ((ha | he) | hcr)
          · exact Or.inl ha
          · exact Or.inr (by omega)
          · exact Or.inr (by omega)
        · rintro (ha | hp)
          · exact Or.inl (Or.inl ha)
          · rcases Nat.lt_or_ge 0 (extHit k n) with he | he
            · exact Or.inl (Or.inr he)
            · exact Or.inr (by omega)
    | err e =>
      exact absurd hs (tallyStep_no_err n acc e)
    | panicked =>
      rw [hs] at h
      exact RRes.noConfusion (show RRes.panicked = RRes.ok m from h)
  | dir n cs rest ihcs ihrest =>
    intro acc m hwf h
    simp only [tallyGo] at h
    cases hcs : tallyGo cs [] with
    | ok child =>
      rw [hcs] at h
      have h' : tallyGo rest (mergeAll acc child) = RRes.ok m := h
      have hchild := ihcs [] child mapWF_nil hcs
      have hrest := ihrest (mergeAll acc child) m (mergeAll_WF child acc hwf) h'
      refine ⟨hrest.1, fun k => ?_⟩
      obtain ⟨hl, hm⟩ := hrest.2 k
      obtain ⟨cl, cm⟩ := hchild.2 k
      have hcl : lookupD child k = countExt k cs % U32 := by
        rw [cl]
        simp [lookupD, lookup?]
      have hcm : (lookup? child k).isSome ↔ 0 < countExt k cs := by
        rw [cm]
        simp [lookup?]
      have hmerge : lookupD (mergeAll acc child) k =
          (lookupD acc k + countExt k cs) % U32 := by
        rw [mergeAll_lookupD child acc hwf.1 k, sumKey_eq_lookupD hchild.1.2 k, hcl,
          Nat.add_comm (lookupD acc k), Nat.mod_add_mod, Nat.add_comm]
      constructor
      · rw [hl, hmerge, Nat.mod_add_mod, Nat.add_assoc]
        simp only [countExt]
      · rw [hm, mergeAll_isSome, hcm]
        simp only [countExt]
        constructor
        · rintro ((ha | hcc) | hcr)
          · exact Or.inl ha
          · exact Or.inr (by omega)
          · exact Or.inr (by omega)
        · rintro (ha | hp)
          · exact Or.inl (Or.inl ha)
          · rcases Nat.lt_or_ge 0 (countExt k cs) with hcc | hcc
            · exact Or.inl (Or.inr hcc)
            · exact Or.inr (by omega)
    | err e =>
      rw [hcs] at h
      exact RRes.noConfusion (show RRes.err e = RRes.ok m from h)
    | panicked =>
      rw [hcs] at h
      exact RRes.noConfusion (show RRes.panicked = RRes.ok m from h)

theorem tally_clean_no_err (f : Forest) : clean f = true →
    ∀ acc, (∃ m, tallyGo f acc = RRes.ok m) ∨ tallyGo f acc = RRes.panicked := by
  induction f with
  | nil =>
    intro _ acc
    exact Or.inl ⟨acc, rfl⟩
  | ioerr rest ih =>
    intro hc
    simp [clean] at hc
  | file n rest ih =>
    intro hc acc
    simp only [clean] at hc
    simp only [tallyGo]
    cases hs : tallyStep n acc with
    | ok acc2 => exact ih hc acc2
    | err e => exact absurd hs (tallyStep_no_err n acc e)
    | panicked => exact Or.inr rfl
  | symlink n rest ih =>
    intro hc acc
    simp only [clean] at hc
    simp only [tallyGo]
    cases hs : tallyStep n acc with
    | ok acc2 => exact ih hc acc2
    | err e => exact absurd hs (tallyStep_no_err n acc e)
    | panicked => exact Or.inr rfl
  | dir n cs rest ihcs ihrest =>
    intro hc acc
    simp only [clean, Bool.and_eq_true] at hc
    simp only [tallyGo]
    rcases ihcs hc.1 [] with ⟨child, hch⟩ | hch
    · rw [hch]
      exact ihrest hc.2 (mergeAll acc child)
    · rw [hch]
      exact Or.inr rfl

theorem countExt_consF (k : String) (e : Ent) (r : Forest) :
    countExt k (consF e r) = cEnt k e + countExt k r := by
  cases e <;> simp [consF, cEnt, countExt]

theorem countExt_perm {a b : Forest} (h : PermForest a b) (k : String) :
    countExt k a = countExt k b := by
  induction h with
  | nil => rfl
  | file n _ ih => simp only [countExt, ih]
  | symlink n _ ih => simp only [countExt, ih]
  | ioerr _ ih => simp only [countExt, ih]
  | dir n _ _ ihcs ihr => simp only [countExt, ihcs, ihr]
  | swap e e' r =>
    rw [countExt_consF, countExt_consF, countExt_consF, countExt_consF]
    omega
  | trans _ _ ih1 ih2 => exact ih1.trans ih2

/-! ### Claim C5: what the tally counts -/

/-- C5 fails as stated: per the claim, an extension is "a suffix after
the last separator in the final component", so ".gitignore" has the
extension "gitignore" and the tally of a directory holding only that
file should map "gitignore" to 1; but the code's Path::extension returns
None for a name whose only '.' is its leading character, so the
resulting mapping is empty and has no key at all. -/
theorem claim_C5_counterexample :
    specExtension (strToOs ".gitignore") = some (strToOs "gitignore") ∧
    find_unique_extensions (Forest.file (strToOs ".gitignore") Forest.nil) =
      RRes.ok [] ∧
    lookup? [] "gitignore" = none := by
  refine ⟨by decide, by decide, rfl⟩

/-- C5 amended: extension per the code's rule — the suffix after the
last '.' of the final component, except that a name with no '.' or
whose only '.' is its leading character has none.  On a successful
tally, the count stored under a key k is the number of regular files
and symlinks in the tree whose extension decodes to k (as a u32), and
k appears as a key exactly when that number is positive: files without
an extension contribute nothing and never appear as keys, and
directories contribute only through their children. -/
theorem claim_C5_tally_counts (f : Forest) (m : ExtMap)
    (h : find_unique_extensions f = RRes.ok m) (k : String) :
    lookupD m k = countExt k f % U32 ∧
    ((lookup? m k).isSome ↔ 0 < countExt k f) := by
  have hc := tally_char f [] m mapWF_nil h
  obtain ⟨hl, hm⟩ := hc.2 k
  constructor
  · rw [hl]
    simp [lookupD, lookup?]
  · rw [hm]
    simp [lookup?]

/-- Witness for C5 on a tree with "a.txt" at the top and "b.txt" plus an
extension-less file inside a subdirectory. -/
theorem claim_C5_tally_counts_witness :
    lookupD [("txt", 2)] "txt" =
      countExt "txt" (Forest.file (strToOs "a.txt")
        (Forest.dir (strToOs "sub")
          (Forest.file (strToOs "b.txt") (Forest.file (strToOs "noext") Forest.nil))
          Forest.nil)) % U32 ∧
    ((lookup? [("txt", 2)] "txt").isSome ↔
      0 < countExt "txt" (Forest.file (strToOs "a.txt")
        (Forest.dir (strToOs "sub")
          (Forest.file (strToOs "b.txt") (Forest.file (strToOs "noext") Forest.nil))
          Forest.nil))) :=
  claim_C5_tally_counts
    (Forest.file (strToOs "a.txt")
      (Forest.dir (strToOs "sub")
        (Forest.file (strToOs "b.txt") (Forest.file (strToOs "noext") Forest.nil))
        Forest.nil))
    [("txt", 2)] (by decide) "txt"

/-! ### Claim C8: tally invariance under sibling order -/

/-- C8: the extension-count mapping produced by the tally is the same
mapping for all reorderings of sibling entries (at any depth): whenever
both runs return ok, every key has the same lookup in both results. -/
theorem claim_C8_order_invariant {a b : Forest} (hp : PermForest a b)
    (ma mb : ExtMap) (ha : find_unique_extensions a = RRes.ok ma)
    (hb : find_unique_extensions b = RRes.ok mb) (k : String) :
    lookupD ma k = lookupD mb k ∧
    ((lookup? ma k).isSome ↔ (lookup? mb k).isSome) := by
  have hca := tally_char a [] ma mapWF_nil ha
  have hcb := tally_char b [] mb mapWF_nil hb
  obtain ⟨la, maem⟩ := hca.2 k
  obtain ⟨lb, mbem⟩ := hcb.2 k
  have hceq : countExt k a = countExt k b := countExt_perm hp k
  constructor
  · rw [la, lb, hceq]
  · rw [maem, mbem, hceq]

/-- Witness for C8: swapping the two files "a.x" and "b.y" leaves the
lookup of "x" unchanged. -/
theorem claim_C8_order_invariant_witness :
    lookupD [("x", 1), ("y", 1)] "x" = lookupD [("y", 1), ("x", 1)] "x" ∧
    ((lookup? [("x", 1), ("y", 1)] "x").isSome ↔
      (lookup? [("y", 1), ("x", 1)] "x").isSome) :=
  claim_C8_order_invariant
    (PermForest.swap (Ent.file (strToOs "a.x")) (Ent.file (strToOs "b.y")) Forest.nil)
    [("x", 1), ("y", 1)] [("y", 1), ("x", 1)] (by decide) (by decide) "x"

/-! ### Claim C10: a non-UTF-8 extension panics the tally -/

/-- C10: on a tree without injected I/O failures that contains a regular
file or symlink whose extension is present but not valid UTF-8,
find_unique_extensions never returns Err (or Ok): the unwrap of
ext.to_str() panics, whatever the accumulator state. -/
theorem claim_C10_bad_ext_panics (f : Forest) :
    clean f = true → hasBadExt f = true →
    ∀ acc, tallyGo f acc = RRes.panicked := by
  induction f with
  | nil =>
    intro _ hb
    simp [hasBadExt] at hb
  | ioerr rest ih =>
    intro hc _
    simp [clean] at hc
  | file n rest ih =>
    intro hc hb acc
    simp only [clean] at hc
    simp only [hasBadExt, Bool.or_eq_true] at hb
    simp only [tallyGo]
    rcases hb with hbn | hbr
    · rw [(tallyStep_panic_iff n acc).2 hbn]
    · cases hs : tallyStep n acc with
      | ok acc2 => exact ih hc hbr acc2
      | err e => exact absurd hs (tallyStep_no_err n acc e)
      | panicked => rfl
  | symlink n rest ih =>
    intro hc hb acc
    simp only [clean] at hc
    simp only [hasBadExt, Bool.or_eq_true] at hb
    simp only [tallyGo]
    rcases hb with hbn | hbr
    · rw [(tallyStep_panic_iff n acc).2 hbn]
    · cases hs : tallyStep n acc with
      | ok acc2 => exact ih hc hbr acc2
      | err e => exact absurd hs (tallyStep_no_err n acc e)
      | panicked => rfl
  | dir n cs rest ihcs ihrest =>
    intro hc hb acc
    simp only [clean, Bool.and_eq_true] at hc
    simp only [hasBadExt, Bool.or_eq_true] at hb
    simp only [tallyGo]
    rcases hb with hbc | hbr
    · rw [ihcs hc.1 hbc []]
    · rcases tally_clean_no_err cs hc.1 [] with ⟨child, hch⟩ | hch
      · rw [hch]
        exact ihrest hc.2 hbr (mergeAll acc child)
      · rw [hch]

/-- Witness for C10: the file "a.<bad>" (a '.' followed by an invalid
byte sequence) panics the tally. -/
theorem claim_C10_bad_ext_panics_witness :
    tallyGo (Forest.file [OsChar.chr 'a', OsChar.chr '.', OsChar.bad] Forest.nil) [] =
      RRes.panicked :=
  claim_C10_bad_ext_panics
    (Forest.file [OsChar.chr 'a', OsChar.chr '.', OsChar.bad] Forest.nil)
    (by decide) (by decide) []

/-! ### Lemmas about the walker -/

/-- The convert_file_or_dir call on an entry emits either nothing (name
not valid UTF-8 or empty) or exactly one rename of the entry's path to
the converted name. -/
theorem convertEvts_cases (c : LetterCase) (par : FsPath) (n : OsName) :
    convertEvts c par n = [] ∨
    convertEvts c par n =
      [Evt.rename (par ++ [n]) (par ++ [convertEntryName c n])] := by
  cases h : osToStr? n with
  | none =>
    left
    unfold convertEvts
    rw [cfod_concat, h]
    rfl
  | some s =>
    unfold convertEvts convertEntryName
    rw [cfod_concat, h]
    by_cases hs : s = ""
    · left
      simp [hs, actEvts]
    · right
      simp [hs, actEvts]

theorem convertEvts_src (c : LetterCase) (par : FsPath) (n : OsName) :
    ∀ ev ∈ convertEvts c par n, evSrc ev = par ++ [n] := by
  intro ev hev
  rcases convertEvts_cases c par n with h | h
  · rw [h] at hev
    simp at hev
  · rw [h] at hev
    simp at hev
    rw [hev]
    rfl

/-- With ignore-dirs set, the walk converts only the top level: the
resulting tree is the one-level map topConvert, no error occurs on a
clean tree, and every rename event stays at depth one below par. -/
theorem walk_ignore_dirs (c : LetterCase) (iF : Bool) (f : Forest) :
    ∀ par, clean f = true →
      (convert_children c iF true par f).tree = topConvert c iF f ∧
      (convert_children c iF true par f).err = none ∧
      ∀ ev ∈ (convert_children c iF true par f).evts,
        ∃ n : OsName, evSrc ev = par ++ [n] := by
  induction f with
  | nil =>
    intro par _
    refine ⟨rfl, rfl, ?_⟩
    intro ev hev
    simp [convert_children] at hev
  | ioerr rest ih =>
    intro par hc
    simp [clean] at hc
  | file n rest ih =>
    intro par hc
    simp only [clean] at hc
    obtain ⟨ht, he, hev⟩ := ih par hc
    cases hiF : iF with
    | true =>
      subst hiF
      refine ⟨?_, ?_, ?_⟩
      · simp [convert_children, topConvert, ht]
      · simp [convert_children, he]
      · intro ev hevm
        simp [convert_children] at hevm
        exact hev ev hevm
    | false =>
      subst hiF
      refine ⟨?_, ?_, ?_⟩
      · simp [convert_children, topConvert, ht]
      · simp [convert_children, he]
      · intro ev hevm
        simp [convert_children] at hevm
        rcases hevm with hin | hin
        · exact ⟨n, convertEvts_src c par n ev hin⟩
        · exact hev ev hin
  | symlink n rest ih =>
    intro par hc
    simp only [clean] at hc
    obtain ⟨ht, he, hev⟩ := ih par hc
    cases hiF : iF with
    | true =>
      subst hiF
      refine ⟨?_, ?_, ?_⟩
      · simp [convert_children, topConvert, ht]
      · simp [convert_children, he]
      · intro ev hevm
        simp [convert_children] at hevm
        exact hev ev hevm
    | false =>
      subst hiF
      refine ⟨?_, ?_, ?_⟩
      · simp [convert_children, topConvert, ht]
      · simp [convert_children, he]
      · intro ev hevm
        simp [convert_children] at hevm
        rcases hevm with hin | hin
        · exact ⟨n, convertEvts_src c par n ev hin⟩
        · exact hev ev hin
  | dir n cs rest ihcs ihrest =>
    intro par hc
    simp only [clean, Bool.and_eq_true] at hc
    obtain ⟨ht, he, hev⟩ := ihrest par hc.2
    refine ⟨?_, ?_, ?_⟩
    · simp [convert_children, topConvert, ht]
    · simp [convert_children, he]
    · intro ev hevm
      simp [convert_children] at hevm
      exact hev ev hevm

/-- With ignore-files set (and ignore-dirs not), the walk converts
directory names at every depth and leaves every file and symlink
untouched: the resulting tree is dirsOnly. -/
theorem walk_ignore_files (c : LetterCase) (f : Forest) :
    ∀ par, clean f = true →
      (convert_children c true false par f).tree = dirsOnly c f ∧
      (convert_children c true false par f).err = none := by
  induction f with
  | nil =>
    intro par _
    exact ⟨rfl, rfl⟩
  | ioerr rest ih =>
    intro par hc
    simp [clean] at hc
  | file n rest ih =>
    intro par hc
    simp only [clean] at hc
    obtain ⟨ht, he⟩ := ih par hc
    constructor
    · simp [convert_children, dirsOnly, ht]
    · simp [convert_children, he]
  | symlink n rest ih =>
    intro par hc
    simp only [clean] at hc
    obtain ⟨ht, he⟩ := ih par hc
    constructor
    · simp [convert_children, dirsOnly, ht]
    · simp [convert_children, he]
  | dir n cs rest ihcs ihrest =>
    intro par hc
    simp only [clean, Bool.and_eq_true] at hc
    obtain ⟨hct, hce⟩ := ihcs (par ++ [n]) hc.1
    obtain ⟨ht, he⟩ := ihrest par hc.2
    constructor
    · simp [convert_children, hce, dirsOnly, hct, ht]
    · simp [convert_children, hce, he]

/-! ### Claim C1: what the ignore flags suppress -/

/-- C1 fails as stated: with ignore-dirs set, the walker does not
descend into subdirectories at all.  A subdirectory holding the file
"f.txt" is left entirely untouched — identical tree, no rename events,
no error — although the claim requires the inner file to be converted
to "F.TXT" (only the directory's own renaming being suppressed). -/
theorem claim_C1_counterexample :
    convert_children LetterCase.UpperCase false true [strToOs "r"]
      (Forest.dir (strToOs "sub") (Forest.file (strToOs "f.txt") Forest.nil)
        Forest.nil) =
    ⟨Forest.dir (strToOs "sub") (Forest.file (strToOs "f.txt") Forest.nil)
        Forest.nil,
      [], none⟩ := by
  decide

/-- C1 amended: with ignore-dirs set, directory entries are skipped
wholesale — neither renamed nor descended into, so their subtrees are
left untouched and every rename event stays at the top level — while
top-level files and symlinks are still converted (unless ignore-files is
also set); with ignore-files set and ignore-dirs not, files and symlinks
are left unchanged at every recursion depth while directory names are
converted at every depth. -/
theorem claim_C1_ignore_flags (c : LetterCase) (iF : Bool) (par : FsPath)
    (f : Forest) (hc : clean f = true) :
    (convert_children c iF true par f).tree = topConvert c iF f ∧
    (∀ ev ∈ (convert_children c iF true par f).evts,
      ∃ n : OsName, evSrc ev = par ++ [n]) ∧
    (convert_children c true false par f).tree = dirsOnly c f := by
  obtain ⟨h1, _, h3⟩ := walk_ignore_dirs c iF f par hc
  obtain ⟨h4, _⟩ := walk_ignore_files c f par hc
  exact ⟨h1, h3, h4⟩

/-- Witness for C1 (amended) on a tree with a file and a subdirectory
holding another file. -/
theorem claim_C1_ignore_flags_witness :
    (convert_children LetterCase.UpperCase false true [strToOs "r"]
      (Forest.file (strToOs "a.txt")
        (Forest.dir (strToOs "sub") (Forest.file (strToOs "b.txt") Forest.nil)
          Forest.nil))).tree =
      topConvert LetterCase.UpperCase false
        (Forest.file (strToOs "a.txt")
          (Forest.dir (strToOs "sub") (Forest.file (strToOs "b.txt") Forest.nil)
            Forest.nil)) ∧
    (convert_children LetterCase.UpperCase true false [strToOs "r"]
      (Forest.file (strToOs "a.txt")
        (Forest.dir (strToOs "sub") (Forest.file (strToOs "b.txt") Forest.nil)
          Forest.nil))).tree =
      dirsOnly LetterCase.UpperCase
        (Forest.file (strToOs "a.txt")
          (Forest.dir (strToOs "sub") (Forest.file (strToOs "b.txt") Forest.nil)
            Forest.nil)) := by
  have h := claim_C1_ignore_flags LetterCase.UpperCase false [strToOs "r"]
    (Forest.file (strToOs "a.txt")
      (Forest.dir (strToOs "sub") (Forest.file (strToOs "b.txt") Forest.nil)
        Forest.nil)) (by decide)
  have h2 := claim_C1_ignore_flags LetterCase.UpperCase true [strToOs "r"]
    (Forest.file (strToOs "a.txt")
      (Forest.dir (strToOs "sub") (Forest.file (strToOs "b.txt") Forest.nil)
        Forest.nil)) (by decide)
  exact ⟨h.1, h2.2.2⟩

/-! ### Claim C2: error reporting of the command -/

/-- C2 fails as stated: with an I/O error in the recursive walk, the
command prints the Error message but does not stop — convert_case_command
has no return after the walk's error branch, so convert_file_or_dir is
still called on the root, and here "root" is renamed to "ROOT" right
after the error was reported. -/
theorem claim_C2_counterexample :
    convert_case_command LetterCase.UpperCase true false false
      [strToOs "root"] (Forest.ioerr Forest.nil) =
    [Evt.errMsg ioMsg,
     Evt.rename [strToOs "root"] [strToOs "ROOT"]] := by
  decide

/-- C2 amended: on an I/O error during the recursive walk, the command
emits the "Error: <description>" message and the walk itself stops at
the failing entry — the events and error of a walk whose first entry
fails do not depend on the siblings after it — but the top-level
operation does not stop: the rename of the root path itself is still
attempted after the error. -/
theorem claim_C2_error_reporting (c : LetterCase) (iF iD : Bool)
    (p : FsPath) (f : Forest) (e : String)
    (hw : (convert_children c iF iD p f).err = some e) :
    (convert_case_command c true iF iD p f =
      (convert_children c iF iD p f).evts ++ [Evt.errMsg e] ++
        actEvts (convert_file_or_dir p c)) ∧
    (∀ (e0 : Ent) (r : Forest),
      (convert_children c iF iD p (consF e0 Forest.nil)).err ≠ none →
      (convert_children c iF iD p (consF e0 r)).evts =
        (convert_children c iF iD p (consF e0 Forest.nil)).evts ∧
      (convert_children c iF iD p (consF e0 r)).err =
        (convert_children c iF iD p (consF e0 Forest.nil)).err) := by
  constructor
  · simp [convert_case_command, hw]
  · intro e0 r h0
    cases e0 with
    | file n =>
      exfalso
      apply h0
      cases hiF : iF with
      | true =>
        subst hiF
        simp [consF, convert_children]
      | false =>
        subst hiF
        simp [consF, convert_children]
    | symlink n =>
      exfalso
      apply h0
      cases hiF : iF with
      | true =>
        subst hiF
        simp [consF, convert_children]
      | false =>
        subst hiF
        simp [consF, convert_children]
    | ioerr => exact ⟨rfl, rfl⟩
    | dir n cs =>
      cases hiD : iD with
      | true =>
        subst hiD
        exfalso
        apply h0
        simp [consF, convert_children]
      | false =>
        subst hiD
        cases hwc : (convert_children c iF false (p ++ [n]) cs).err with
        | some e2 =>
          constructor
          · simp [consF, convert_children, hwc]
          · simp [consF, convert_children, hwc]
        | none =>
          exfalso
          apply h0
          simp [consF, convert_children, hwc]

/-- Witness for C2 (amended): the walk over a file followed by a failing
entry reports the error, and the command still renames the root. -/
theorem claim_C2_error_reporting_witness :
    convert_case_command LetterCase.UpperCase true false false [strToOs "root"]
      (Forest.file (strToOs "a") (Forest.ioerr Forest.nil)) =
      (convert_children LetterCase.UpperCase false false [strToOs "root"]
        (Forest.file (strToOs "a") (Forest.ioerr Forest.nil))).evts ++
        [Evt.errMsg ioMsg] ++
        actEvts (convert_file_or_dir [strToOs "root"] LetterCase.UpperCase) :=
  (claim_C2_error_reporting LetterCase.UpperCase false false [strToOs "root"]
    (Forest.file (strToOs "a") (Forest.ioerr Forest.nil)) ioMsg (by decide)).1

/-! ### Depth-first ordering of the rename trace (claim C4) -/

theorem prefix_same_length_eq {α : Type} {l1 l2 m : List α} (h1 : l1 <+: m)
    (h2 : l2 <+: m) (hl : l1.length = l2.length) : l1 = l2 :=
  (List.prefix_of_prefix_length_le h1 h2 (le_of_eq hl)).eq_of_length hl

theorem concat_prefix_same {par : FsPath} {x y : OsName} {m : FsPath}
    (h1 : (par ++ [x]) <+: m) (h2 : (par ++ [y]) <+: m) : x = y := by
  have h := prefix_same_length_eq h1 h2 (by simp)
  have h3 := List.append_cancel_left h
  simpa using h3

theorem not_pathBelow_of_longer {q r : FsPath} (h : r.length < q.length) :
    ¬ pathBelow q r := by
  rintro ⟨hp, _⟩
  have := hp.length_le
  omega

/-- Events whose sources live in two different sibling subtrees (below
par ++ [x] and par ++ [y], x ≠ y) are never ancestor-related. -/
theorem cross_not_below {par : FsPath} {x y : OsName} (hxy : x ≠ y)
    {qa qb : FsPath} (ha : (par ++ [x]) <+: qa) (hb : (par ++ [y]) <+: qb) :
    ¬ pathBelow qa qb := by
  rintro ⟨hp, _⟩
  exact hxy (concat_prefix_same (ha.trans hp) hb)

/-- An event from inside the subtree of the entry n is never an ancestor
of the entry's own path. -/
theorem deeper_not_below {par : FsPath} {n nm : OsName} {qa : FsPath}
    (ha : ((par ++ [n]) ++ [nm]) <+: qa) : ¬ pathBelow qa (par ++ [n]) := by
  apply not_pathBelow_of_longer
  have := ha.length_le
  simp at this ⊢
  omega

/-- Unfolding equation for the walker on a directory entry with
ignore-dirs unset; proved by reflexivity, used to rewrite under the
unresolved error scrutinee. -/
theorem cc_dir_eq (c : LetterCase) (iF : Bool) (par : FsPath) (n : OsName)
    (cs rest : Forest) :
    convert_children c iF false par (Forest.dir n cs rest) =
      match (convert_children c iF false (par ++ [n]) cs).err with
      | some e2 =>
        ⟨Forest.dir n (convert_children c iF false (par ++ [n]) cs).tree rest,
          (convert_children c iF false (par ++ [n]) cs).evts, some e2⟩
      | none =>
        ⟨Forest.dir (convertEntryName c n)
            (convert_children c iF false (par ++ [n]) cs).tree
            (convert_children c iF false par rest).tree,
          (convert_children c iF false (par ++ [n]) cs).evts ++
            convertEvts c par n ++ (convert_children c iF false par rest).evts,
          (convert_children c iF false par rest).err⟩ := rfl

/-- Every rename event of the walk has its source inside the subtree of
one of the listed entries: par ++ [nm] is a prefix of the source for
some top-level entry name nm. -/
theorem walk_evts_src (c : LetterCase) (iF iD : Bool) (f : Forest) :
    ∀ par, ∀ ev ∈ (convert_children c iF iD par f).evts,
      ∃ nm ∈ namesOf f, (par ++ [nm]) <+: evSrc ev := by
  induction f with
  | nil =>
    intro par ev hev
    simp [convert_children] at hev
  | ioerr rest ih =>
    intro par ev hev
    simp [convert_children] at hev
  | file n rest ih =>
    intro par ev hev
    cases hiF : iF with
    | true =>
      subst hiF
      simp [convert_children] at hev
      obtain ⟨nm, hnm, hp⟩ := ih par ev hev
      exact ⟨nm, by simp [namesOf, hnm], hp⟩
    | false =>
      subst hiF
      simp [convert_children] at hev
      rcases hev with hin | hin
      · refine ⟨n, by simp [namesOf], ?_⟩
        rw [convertEvts_src c par n ev hin]
      · obtain ⟨nm, hnm, hp⟩ := ih par ev hin
        exact ⟨nm, by simp [namesOf, hnm], hp⟩
  | symlink n rest ih =>
    intro par ev hev
    cases hiF : iF with
    | true =>
      subst hiF
      simp [convert_children] at hev
      obtain ⟨nm, hnm, hp⟩ := ih par ev hev
      exact ⟨nm, by simp [namesOf, hnm], hp⟩
    | false =>
      subst hiF
      simp [convert_children] at hev
      rcases hev with hin | hin
      · refine ⟨n, by simp [namesOf], ?_⟩
        rw [convertEvts_src c par n ev hin]
      · obtain ⟨nm, hnm, hp⟩ := ih par ev hin
        exact ⟨nm, by simp [namesOf, hnm], hp⟩
  | dir n cs rest ihcs ihrest =>
    intro par ev hev
    cases hiD : iD with
    | true =>
      subst hiD
      simp [convert_children] at hev
      obtain ⟨nm, hnm, hp⟩ := ihrest par ev hev
      exact ⟨nm, by simp [namesOf, hnm], hp⟩
    | false =>
      subst hiD
      cases hwc : (convert_children c iF false (par ++ [n]) cs).err with
      | some e =>
        simp [convert_children, hwc] at hev
        obtain ⟨nm, _, hp⟩ := ihcs (par ++ [n]) ev hev
        exact ⟨n, by simp [namesOf], (List.prefix_append (par ++ [n]) [nm]).trans hp⟩
      | none =>
        simp [convert_children, hwc] at hev
        rcases hev with hin | hin | hin
        · obtain ⟨nm, _, hp⟩ := ihcs (par ++ [n]) ev hin
          exact ⟨n, by simp [namesOf], (List.prefix_append (par ++ [n]) [nm]).trans hp⟩
        · refine ⟨n, by simp [namesOf], ?_⟩
          rw [convertEvts_src c par n ev hin]
        · obtain ⟨nm, hnm, hp⟩ := ihrest par ev hin
          exact ⟨nm, by simp [namesOf, hnm], hp⟩

theorem convertEvts_pairwise (c : LetterCase) (par : FsPath) (n : OsName) :
    (convertEvts c par n).Pairwise
      (fun a b => ¬ pathBelow (evSrc a) (evSrc b)) := by
  rcases convertEvts_cases c par n with h | h <;> rw [h] <;> simp

/-- In the trace of a well-formed walk, no event renames an ancestor of
the source of a later event: children are always fully handled before
their parent directory is renamed. -/
theorem walk_evts_pairwise (c : LetterCase) (iF iD : Bool) (f : Forest) :
    ∀ par, wfForest f = true →
      ((convert_children c iF iD par f).evts).Pairwise
        (fun a b => ¬ pathBelow (evSrc a) (evSrc b)) := by
  induction f with
  | nil =>
    intro par _
    simp [convert_children]
  | ioerr rest ih =>
    intro par _
    simp [convert_children]
  | file n rest ih =>
    intro par hwf
    simp only [wfForest, Bool.and_eq_true, decide_eq_true_eq] at hwf
    obtain ⟨hnm, hwr⟩ := hwf
    cases hiF : iF with
    | true =>
      subst hiF
      exact ih par hwr
    | false =>
      subst hiF
      show (convertEvts c par n ++
          (convert_children c false iD par rest).evts).Pairwise
        (fun a b => ¬ pathBelow (evSrc a) (evSrc b))
      rw [List.pairwise_append]
      refine ⟨convertEvts_pairwise c par n, ih par hwr, ?_⟩
      intro a ha b hb
      have hsa := convertEvts_src c par n a ha
      obtain ⟨nm, hnmm, hp⟩ := walk_evts_src c false iD rest par b hb
      rw [hsa]
      exact cross_not_below (fun he => hnm (by rw [he]; exact hnmm)) (List.prefix_refl _) hp
  | symlink n rest ih =>
    intro par hwf
    simp only [wfForest, Bool.and_eq_true, decide_eq_true_eq] at hwf
    obtain ⟨hnm, hwr⟩ := hwf
    cases hiF : iF with
    | true =>
      subst hiF
      exact ih par hwr
    | false =>
      subst hiF
      show (convertEvts c par n ++
          (convert_children c false iD par rest).evts).Pairwise
        (fun a b => ¬ pathBelow (evSrc a) (evSrc b))
      rw [List.pairwise_append]
      refine ⟨convertEvts_pairwise c par n, ih par hwr, ?_⟩
      intro a ha b hb
      have hsa := convertEvts_src c par n a ha
      obtain ⟨nm, hnmm, hp⟩ := walk_evts_src c false iD rest par b hb
      rw [hsa]
      exact cross_not_below (fun he => hnm (by rw [he]; exact hnmm)) (List.prefix_refl _) hp
  | dir n cs rest ihcs ihrest =>
    intro par hwf
    simp only [wfForest, Bool.and_eq_true, decide_eq_true_eq] at hwf
    obtain ⟨⟨hnm, hwcs⟩, hwr⟩ := hwf
    cases hiD : iD with
    | true =>
      subst hiD
      exact ihrest par hwr
    | false =>
      subst hiD
      rw [cc_dir_eq]
      cases hwc : (convert_children c iF false (par ++ [n]) cs).err with
      | some e =>
        exact ihcs (par ++ [n]) hwcs
      | none =>
        show (((convert_children c iF false (par ++ [n]) cs).evts ++
            convertEvts c par n) ++
            (convert_children c iF false par rest).evts).Pairwise
          (fun a b => ¬ pathBelow (evSrc a) (evSrc b))
        rw [List.pairwise_append]
        refine ⟨?_, ihrest par hwr, ?_⟩
        · rw [List.pairwise_append]
          refine ⟨ihcs (par ++ [n]) hwcs, convertEvts_pairwise c par n, ?_⟩
          intro a ha b hb
          obtain ⟨nma, _, hpa⟩ := walk_evts_src c iF false cs (par ++ [n]) a ha
          rw [convertEvts_src c par n b hb]
          exact deeper_not_below hpa
        · intro a ha b hb
          obtain ⟨nmb, hnmb, hpb⟩ := walk_evts_src c iF false rest par b hb
          rw [List.mem_append] at ha
          rcases ha with ha | ha
          · obtain ⟨nma, _, hpa⟩ := walk_evts_src c iF false cs (par ++ [n]) a ha
            exact cross_not_below (fun he => hnm (by rw [he]; exact hnmb))
              ((List.prefix_append (par ++ [n]) [nma]).trans hpa) hpb
          · rw [convertEvts_src c par n a ha]
            exact cross_not_below (fun he => hnm (by rw [he]; exact hnmb))
              (List.prefix_refl _) hpb

/-! ### Claim C4: children before parents, root last -/

/-- C4: on a successful recursive conversion of a well-formed directory
tree rooted at a path with a valid non-empty final name, the command's
trace is exactly the walk's trace followed — last of all, whatever the
ignore flags — by the rename of the root path itself; and in the whole
trace no event's source path is a strict ancestor of a later event's
source path: every entry's children are renamed before the entry, leaves
before ancestors, the root after the whole walk. -/
theorem claim_C4_children_first (c : LetterCase) (iF iD : Bool) (pre : FsPath)
    (n : OsName) (s : String) (f : Forest)
    (hn : osToStr? n = some s) (hs : s ≠ "")
    (hwf : wfForest f = true)
    (herr : (convert_children c iF iD (pre ++ [n]) f).err = none) :
    convert_case_command c true iF iD (pre ++ [n]) f =
      (convert_children c iF iD (pre ++ [n]) f).evts ++
        [Evt.rename (pre ++ [n]) (pre ++ [strToOs (applyCase c s)])] ∧
    (convert_case_command c true iF iD (pre ++ [n]) f).Pairwise
      (fun a b => ¬ pathBelow (evSrc a) (evSrc b)) := by
  have hroot : convert_file_or_dir (pre ++ [n]) c =
      RenameAct.rename (pre ++ [n]) (pre ++ [strToOs (applyCase c s)]) := by
    rw [cfod_concat, hn]
    simp [hs]
  have heq : convert_case_command c true iF iD (pre ++ [n]) f =
      (convert_children c iF iD (pre ++ [n]) f).evts ++
        [Evt.rename (pre ++ [n]) (pre ++ [strToOs (applyCase c s)])] := by
    simp [convert_case_command, herr, hroot, actEvts]
  refine ⟨heq, ?_⟩
  rw [heq, List.pairwise_append]
  refine ⟨walk_evts_pairwise c iF iD f (pre ++ [n]) hwf, by simp, ?_⟩
  intro a ha b hb
  simp at hb
  obtain ⟨nm, _, hp⟩ := walk_evts_src c iF iD f (pre ++ [n]) a ha
  rw [hb]
  exact deeper_not_below hp

/-- Witness for C4 on the tree tmp/root/sub/a.txt. -/
theorem claim_C4_children_first_witness :
    convert_case_command LetterCase.UpperCase true false false
      ([strToOs "tmp"] ++ [strToOs "root"])
      (Forest.dir (strToOs "sub") (Forest.file (strToOs "a.txt") Forest.nil)
        Forest.nil) =
      (convert_children LetterCase.UpperCase false false
        ([strToOs "tmp"] ++ [strToOs "root"])
        (Forest.dir (strToOs "sub") (Forest.file (strToOs "a.txt") Forest.nil)
          Forest.nil)).evts ++
        [Evt.rename ([strToOs "tmp"] ++ [strToOs "root"])
          ([strToOs "tmp"] ++ [strToOs (applyCase LetterCase.UpperCase "root")])] ∧
    (convert_case_command LetterCase.UpperCase true false false
      ([strToOs "tmp"] ++ [strToOs "root"])
      (Forest.dir (strToOs "sub") (Forest.file (strToOs "a.txt") Forest.nil)
        Forest.nil)).Pairwise
      (fun a b => ¬ pathBelow (evSrc a) (evSrc b)) :=
  claim_C4_children_first LetterCase.UpperCase false false [strToOs "tmp"]
    (strToOs "root") "root"
    (Forest.dir (strToOs "sub") (Forest.file (strToOs "a.txt") Forest.nil)
      Forest.nil)
    (by decide) (by decide) (by decide) (by decide)

end RamUtils
